import Mathlib

/-!
Verification of the kanzi `TextCodec` (dictionary-based word substitution
codec, `src/cpp/src/function/TextCodec.hpp`).

The repository ships only the header: constants, the `DictEntry` inline
constructors, `getMaxEncodedLength`, and the character-classifier accessors
are taken directly from that source.  The bodies of `forward`, `inverse`,
the dictionary lookup/insert, the hash function and the classifier tables
are not part of the sources, so they are modelled from the specification
(sections 3, 4.1-4.6 of the spec); each such definition carries a doc
comment saying so.
-/

namespace Kanzi

/-- From the source: `static const int LOG_DICT_SIZE = 15`. -/
def LOG_DICT_SIZE : Nat := 15

/-- From the source: `static const int DICTIONARY_SIZE = 1 << LOG_DICT_SIZE`. -/
def DICTIONARY_SIZE : Nat := 2 ^ LOG_DICT_SIZE

/-- From the source: `static const int LOG_HASHES_SIZE = 24`. -/
def LOG_HASHES_SIZE : Nat := 24

/-- From the source: `static const byte DEFAULT_ESCAPE_TOKEN1 = '@'`. -/
def DEFAULT_ESCAPE_TOKEN1 : Nat := 64

/-- From the source: `static const byte DEFAULT_ESCAPE_TOKEN2 = '^'`. -/
def DEFAULT_ESCAPE_TOKEN2 : Nat := 94

/-- From the source: `static const int HASH1 = 200002979`. -/
def HASH1 : Nat := 200002979

/-- From the source: `static const int HASH2 = 50004239`. -/
def HASH2 : Nat := 50004239

/-- Modelled from the spec (4.3): `initTextChars` is missing from the
sources; bytes considered normal printable text are the ASCII letters and
digits. -/
def isTextByte (i : Nat) : Bool :=
  (65 ≤ i && i ≤ 90) || (97 ≤ i && i ≤ 122) || (48 ≤ i && i ≤ 57)

/-- Modelled from the spec (4.3): `initDelimiterChars` is missing from the
sources; delimiters are whitespace, punctuation and control bytes (the
ASCII bytes outside letters and digits). -/
def isDelimByte (i : Nat) : Bool :=
  (i ≤ 47) || (58 ≤ i && i ≤ 64) || (91 ≤ i && i ≤ 96) || (123 ≤ i && i ≤ 127)

/-- From the source: `static const bool* TEXT_CHARS`, a 256-entry table
(filled by the spec-modelled `isTextByte`). -/
def TEXT_CHARS : List Bool := (List.range 256).map isTextByte

/-- From the source: `static const bool* DELIMITER_CHARS`, a 256-entry table
(filled by the spec-modelled `isDelimByte`). -/
def DELIMITER_CHARS : List Bool := (List.range 256).map isDelimByte

/-- From the source:
`inline static bool isText(byte val) { return TEXT_CHARS[val & 0xFF]; }`.
A possibly signed byte value is modelled as an `Int`. -/
def isText (val : Int) : Bool := TEXT_CHARS.getD (Int.land val 255).toNat false

/-- From the source:
`inline static bool isDelimiter(byte val) { return DELIMITER_CHARS[val & 0xFF]; }`. -/
def isDelimiter (val : Int) : Bool :=
  DELIMITER_CHARS.getD (Int.land val 255).toNat false

/-- From the source:
`inline int getMaxEncodedLength(int srcLen) const { return srcLen; }`. -/
def getMaxEncodedLength (srcLen : Int) : Int := srcLen

/-- C++ narrowing conversion `int16(x)`: two's complement wrap of an `int`
into the range [-32768, 32767]. -/
def toInt16 (x : Int) : Int := (x + 32768) % 65536 - 32768

/-- From the source: `class DictEntry` with fields
`int32 _hash; int _pos; int16 _idx; int16 _length; const byte* _buf`.
The buffer view is modelled as the byte slice it points at. -/
structure DictEntry where
  _hash : Int
  _pos : Int
  _idx : Int
  _length : Int
  _buf : List Nat

/-- From the source, the parameterized constructor:
`DictEntry::DictEntry(const byte buf[], int pos, int32 hash, int idx, int length)`
stores `_idx = int16(idx)` and `_length = int16(length)`. -/
def DictEntry.make (buf : List Nat) (pos : Int) (hash : Int) (idx : Int)
    (length : Int) : DictEntry :=
  { _hash := hash, _pos := pos, _idx := toInt16 idx, _length := toInt16 length,
    _buf := buf }

/-- Modelled from the spec (3): the word hash, a 32-bit multiplicative
scheme over the word's bytes using the two odd multipliers `HASH1` and
`HASH2` at different stages; the hashing body is missing from the sources. -/
def hashWord (w : List Nat) : Nat :=
  (w.foldl (fun h b => (h * HASH1 + b) % 4294967296) 0) * HASH2 % 4294967296

/-- Modelled from the spec (3): one dictionary slot as used by the store;
the buffer view of `DictEntry` is modelled by the word bytes themselves
(spec 9 allows copying the slice), position is not observable by any
verified operation and is omitted. -/
structure Entry where
  word : List Nat
  hash : Nat

/-- Modelled from the spec (3): the Dictionary Store — the insertion-ordered
entry list and the fixed-size hash-indexed table (`hashIndex`) mapping
`hash & hashMask` to at most one entry reference. -/
structure Dict where
  entries : List Entry
  slots : Nat → Option Nat
  hashMask : Nat

/-- Modelled from the spec (4.2): `sameWords` compares two byte slices
byte for byte (its body is missing from the sources). -/
def sameWords : List Nat → List Nat → Bool
  | [], [] => true
  | a :: as, b :: bs => a == b && sameWords as bs
  | _, _ => false

/-- Modelled from the spec (4.2): `lookup(wordBytes, hash)` — compute
`slot = hash & hashMask`; return the slot entry's index only if the stored
hash matches and the bytes are equal, otherwise report not found. -/
def lookup (d : Dict) (w : List Nat) (h : Nat) : Option Nat :=
  match d.slots (h &&& d.hashMask) with
  | none => none
  | some i =>
    match d.entries[i]? with
    | none => none
    | some e => if e.hash = h && sameWords e.word w then some i else none

/-- Modelled from the spec (4.2): `insert(wordBytes, hash)` — refused once
the dictionary has reached `DICTIONARY_SIZE`; otherwise append the entry
with the next sequential index and overwrite `hashIndex[hash & hashMask]`. -/
def insert (d : Dict) (w : List Nat) (h : Nat) : Dict :=
  if DICTIONARY_SIZE ≤ d.entries.length then d
  else
    { entries := d.entries ++ [⟨w, h⟩],
      slots := fun s =>
        if s = (h &&& d.hashMask) then some d.entries.length else d.slots s,
      hashMask := d.hashMask }

/-- Modelled from the spec (4.5): minimum word length worth a dictionary
reference; a single-character word is always emitted literally. -/
def MIN_WORD_LENGTH : Nat := 2

/-- Modelled from the spec (4.5, 4.6): the shared word-boundary rule.
Closing a word of length at least `MIN_WORD_LENGTH`: on a miss the word is
registered, on a hit (or a too-short word) the dictionary is unchanged.
Both transforms apply exactly this rule. -/
def closeWord (d : Dict) (w : List Nat) : Dict :=
  if w.length < MIN_WORD_LENGTH then d
  else
    match lookup d w (hashWord w) with
    | some _ => d
    | none => insert d w (hashWord w)

/-- Modelled from the spec (6): the construction parameters fixed for the
lifetime of a codec instance — the (custom or default) dictionary word
list, the log2 hash-table size, and the two escape byte values. -/
structure Config where
  staticWords : List (List Nat)
  logHashSize : Nat
  e1 : Nat
  e2 : Nat

/-- Modelled from the spec (4.1): seeding at construction — install the
packed word list entries in order, skipping duplicate words already
present; `_hashMask` is `(1 << logHashSize) - 1`. -/
def freshDict (cfg : Config) : Dict :=
  cfg.staticWords.foldl
    (fun d w => if (lookup d w (hashWord w)).isSome then d
                else insert d w (hashWord w))
    { entries := [], slots := fun _ => none, hashMask := 2 ^ cfg.logHashSize - 1 }

/-- Modelled from the spec (4.5): the tokenization unit — a delimiter byte
copied verbatim, or a word (maximal run of non-delimiter bytes). -/
inductive Token where
  | delim (b : Nat)
  | word (w : List Nat)

/-- Modelled from the spec (4.5): segment a byte stream into delimiter
bytes and maximal non-delimiter words. -/
def tokenize (s : List Nat) : List Token :=
  s.foldr
    (fun b acc =>
      if isDelimByte b then Token.delim b :: acc
      else
        match acc with
        | Token.word w :: t => Token.word (b :: w) :: t
        | _ => Token.word [b] :: acc)
    []

/-- The bytes a token list stands for. -/
def render : List Token → List Nat
  | [] => []
  | Token.delim b :: t => b :: render t
  | Token.word w :: t => w ++ render t

/-- Modelled from the spec (4.4): escaped emission of one literal byte —
a literal occurrence of an escape byte is written as `escape2` followed by
the byte, any other byte is written as itself. -/
def escLit (cfg : Config) (b : Nat) : List Nat :=
  if b = cfg.e1 || b = cfg.e2 then [cfg.e2, b] else [b]

/-- Escaped emission of a run of literal bytes. -/
def escLits (cfg : Config) (w : List Nat) : List Nat :=
  w.foldr (fun b acc => escLit cfg b ++ acc) []

/-- Modelled from the spec (4.4): the data bytes of a dictionary reference.
`emit1`: an index below 128 is one data byte; `emit2`: a 15-bit index is
two data bytes, most significant first, with the high bit of the first
data byte set. -/
def refData (i : Nat) : List Nat :=
  if i < 128 then [i] else [128 + i / 256, i % 256]

/-- A full reference: `escape1` followed by the index data bytes. -/
def refBytes (cfg : Config) (i : Nat) : List Nat := cfg.e1 :: refData i

/-- Modelled from the spec (4.5): encode one token. A delimiter is copied
(escaped); a word is looked up when long enough — a hit emits the escape +
index reference, a miss emits the literal bytes and registers the word. -/
def encTok (cfg : Config) (d : Dict) : Token → List Nat × Dict
  | Token.delim b => (escLit cfg b, d)
  | Token.word w =>
    if w.length < MIN_WORD_LENGTH then (escLits cfg w, d)
    else
      match lookup d w (hashWord w) with
      | some i => (refBytes cfg i, d)
      | none => (escLits cfg w, insert d w (hashWord w))

/-- Encode a token list, threading the dictionary. -/
def encTokens (cfg : Config) : Dict → List Token → List Nat × Dict
  | d, [] => ([], d)
  | d, t :: ts =>
    let r := encTok cfg d t
    let r2 := encTokens cfg r.2 ts
    (r.1 ++ r2.1, r2.2)

/-- Modelled from the spec (4.5, 6, 7): `forward` — tokenize, encode, and
succeed only when the output is strictly shorter than the input (the
destination capacity is `getMaxEncodedLength = srcLen`, so any result not
strictly smaller is reported as failure, never emitted). -/
def forward (cfg : Config) (src : List Nat) : Option (List Nat) :=
  let r := encTokens cfg (freshDict cfg) (tokenize src)
  if r.1.length < src.length then some r.1 else none

/-- Modelled from the spec (4.6): the decoder loop. `d` is the dictionary,
`w` the literal word being accumulated, the third argument the remaining
encoded stream. A non-escape byte is copied (a delimiter closes the word
via the shared boundary rule, a text byte extends it); `escape2` unescapes
one literal byte; `escape1` closes the word, reads the one- or two-byte
index, and expands the referenced entry (failing on a truncated sequence
or an index with no existing entry — no placeholder is ever substituted).
The first argument is a step budget (one unit per iteration of the
decoder's single pass); every call made below supplies a budget of at
least the stream length, which is never exhausted since each iteration
consumes at least one stream byte. -/
def decodeLoop (cfg : Config) : Nat → Dict → List Nat → List Nat →
    Option (List Nat × Dict)
  | _, d, w, [] => some ([], closeWord d w)
  | 0, _, _, _ :: _ => none
  | fuel + 1, d, w, b :: s =>
    if b = cfg.e1 then
      match s with
      | [] => none
      | b1 :: s1 =>
        if b1 < 128 then
          match (closeWord d w).entries[b1]? with
          | none => none
          | some e =>
            (decodeLoop cfg fuel (closeWord d w) [] s1).map
              (fun p => (e.word ++ p.1, p.2))
        else
          match s1 with
          | [] => none
          | b2 :: s2 =>
            match (closeWord d w).entries[(b1 - 128) * 256 + b2]? with
            | none => none
            | some e =>
              (decodeLoop cfg fuel (closeWord d w) [] s2).map
                (fun p => (e.word ++ p.1, p.2))
    else if b = cfg.e2 then
      match s with
      | [] => none
      | c :: s1 =>
        if isDelimByte c then
          (decodeLoop cfg fuel (closeWord d w) [] s1).map
            (fun p => (c :: p.1, p.2))
        else
          (decodeLoop cfg fuel d (w ++ [c]) s1).map (fun p => (c :: p.1, p.2))
    else if isDelimByte b then
      (decodeLoop cfg fuel (closeWord d w) [] s).map (fun p => (b :: p.1, p.2))
    else
      (decodeLoop cfg fuel d (w ++ [b]) s).map (fun p => (b :: p.1, p.2))

/-- Modelled from the spec (4.6, 6, 7): `inverse` — run the decoder from
the freshly seeded dictionary; failure is a boolean result, not output. -/
def inverse (cfg : Config) (src : List Nat) : Option (List Nat) :=
  (decodeLoop cfg src.length (freshDict cfg) [] src).map Prod.fst

/-- Modelled from the spec (6, 7) words, for comparison with the decoder:
a stream is malformed exactly when scanning it (maintaining the decoder
dictionary) meets an escape-marked reference whose decoded index is not a
currently existing entry, or an escape byte with insufficient trailing
bytes before the end of the buffer.  The step budget mirrors the
decoder's and is never exhausted when at least the stream length. -/
def malformedStream (cfg : Config) : Nat → Dict → List Nat → List Nat → Bool
  | _, _, _, [] => false
  | 0, _, _, _ :: _ => true
  | fuel + 1, d, w, b :: s =>
    if b = cfg.e1 then
      match s with
      | [] => true
      | b1 :: s1 =>
        if b1 < 128 then
          match (closeWord d w).entries[b1]? with
          | none => true
          | some _ => malformedStream cfg fuel (closeWord d w) [] s1
        else
          match s1 with
          | [] => true
          | b2 :: s2 =>
            match (closeWord d w).entries[(b1 - 128) * 256 + b2]? with
            | none => true
            | some _ => malformedStream cfg fuel (closeWord d w) [] s2
    else if b = cfg.e2 then
      match s with
      | [] => true
      | c :: s1 =>
        if isDelimByte c then malformedStream cfg fuel (closeWord d w) [] s1
        else malformedStream cfg fuel d (w ++ [c]) s1
    else if isDelimByte b then malformedStream cfg fuel (closeWord d w) [] s
    else malformedStream cfg fuel d (w ++ [b]) s

/-- A word token is a nonempty run of non-delimiter bytes. -/
def wordOK (w : List Nat) : Bool :=
  !w.isEmpty && w.all (fun b => !isDelimByte b)

/-- Does the token list start with a word token? -/
def startsWord : List Token → Bool
  | Token.word _ :: _ => true
  | _ => false

/-- Well-formed token lists: words are nonempty non-delimiter runs,
delimiter tokens hold delimiter bytes, and no two words are adjacent. -/
def wfToks : List Token → Bool
  | [] => true
  | Token.delim b :: t => isDelimByte b && wfToks t
  | Token.word w :: t => wordOK w && !startsWord t && wfToks t

/-- A concrete configuration: static dictionary seeded with the single
word "the", the default 24-bit hash table and the default escape bytes
`'@'` and `'^'`. -/
def cfg0 : Config :=
  { staticWords := [[116, 104, 101]], logHashSize := LOG_HASHES_SIZE,
    e1 := DEFAULT_ESCAPE_TOKEN1, e2 := DEFAULT_ESCAPE_TOKEN2 }

/-- The bytes of "the the the". -/
def src0 : List Nat := [116, 104, 101, 32, 116, 104, 101, 32, 116, 104, 101]

/-- The encoding of `src0` under `cfg0`: three index-0 references separated
by literal spaces. -/
def out0 : List Nat := [64, 0, 32, 64, 0, 32, 64, 0]

/-- The bytes of "ab" — an input whose encoding is not strictly shorter. -/
def src1 : List Nat := [97, 98]

/-- A dictionary filled to the `DICTIONARY_SIZE` cap. -/
def capDict : Dict :=
  { entries := List.replicate DICTIONARY_SIZE ⟨[], 0⟩,
    slots := fun _ => none, hashMask := 0 }

theorem tokenize_wf (s : List Nat) : wfToks (tokenize s) = true := by
  induction s with
  | nil => rfl
  | cons b s ih =>
    simp only [tokenize, List.foldr] at *
    by_cases hb : isDelimByte b
    · simp [hb, wfToks, ih]
    · cases htl : List.foldr _ [] s with
      | nil => simp [hb, htl, wfToks, wordOK, startsWord]
      | cons t ts =>
        rw [htl] at ih
        cases t with
        | delim c =>
          simp only [hb, if_false, htl]
          simp only [wfToks, wordOK, startsWord, Bool.and_eq_true] at *
          simp [hb, ih]
        | word w =>
          simp only [hb, if_false, htl]
          simp only [wfToks, wordOK, startsWord, Bool.and_eq_true,
            Bool.not_eq_true', List.all_cons] at *
          simp [hb, ih.1, ih.2]

theorem tokenize_render (s : List Nat) : render (tokenize s) = s := by
  induction s with
  | nil => rfl
  | cons b s ih =>
    simp only [tokenize, List.foldr] at *
    by_cases hb : isDelimByte b
    · simp [hb, render, ih]
    · rw [if_neg hb]
      cases htl : List.foldr _ [] s with
      | nil =>
        rw [htl] at ih
        simp only [render] at ih
        simp [render, ← ih]
      | cons t ts =>
        rw [htl] at ih
        cases t with
        | delim c =>
          simp only [render] at ih ⊢
          simp [ih]
        | word w =>
          simp only [render] at ih ⊢
          simp [← List.cons_append, ih]

theorem wfToks_take (toks : List Token) (k : Nat) (h : wfToks toks = true) :
    wfToks (toks.take k) = true := by
  induction toks generalizing k with
  | nil => simp [wfToks]
  | cons t ts ih =>
    cases k with
    | zero => rfl
    | succ k =>
      cases t with
      | delim b =>
        simp only [wfToks, Bool.and_eq_true] at h ⊢
        exact ⟨h.1, ih k h.2⟩
      | word w =>
        simp only [wfToks, Bool.and_eq_true] at h ⊢
        refine ⟨⟨h.1.1, ?_⟩, ih k h.2⟩
        cases ts with
        | nil => simp [startsWord, List.take]
        | cons t' ts' =>
          cases k with
          | zero => simp [startsWord]
          | succ k =>
            cases t' with
            | delim c => simp [startsWord]
            | word w' =>
              exfalso
              have hw := h.1.2
              simp [startsWord] at hw

theorem closeWord_nil (d : Dict) : closeWord d [] = d := by
  simp [closeWord, MIN_WORD_LENGTH]

theorem sameWords_iff (a b : List Nat) : sameWords a b = true ↔ a = b := by
  induction a generalizing b with
  | nil => cases b <;> simp [sameWords]
  | cons x xs ih =>
    cases b with
    | nil => simp [sameWords]
    | cons y ys => simp [sameWords, ih]

theorem lookup_sound {d : Dict} {w : List Nat} {h : Nat} {i : Nat}
    (hl : lookup d w h = some i) :
    d.slots (h &&& d.hashMask) = some i ∧
      ∃ e, d.entries[i]? = some e ∧ e.hash = h ∧ e.word = w := by
  unfold lookup at hl
  split at hl
  · simp at hl
  · rename_i j hs
    split at hl
    · simp at hl
    · rename_i e he
      split at hl
      · rename_i hcond
        cases hl
        simp only [Bool.and_eq_true, decide_eq_true_eq] at hcond
        exact ⟨hs, e, he, hcond.1, (sameWords_iff _ _).1 hcond.2⟩
      · simp at hl

theorem escLits_cons (cfg : Config) (b : Nat) (v : List Nat) :
    escLits cfg (b :: v) = escLit cfg b ++ escLits cfg v := rfl

theorem decode_lit_nondelim (cfg : Config) (h12 : cfg.e1 ≠ cfg.e2) {b : Nat}
    (hb : isDelimByte b = false) (fuel : Nat) (d : Dict) (w s : List Nat) :
    decodeLoop cfg (fuel + 1) d w (escLit cfg b ++ s)
      = (decodeLoop cfg fuel d (w ++ [b]) s).map (fun p => (b :: p.1, p.2)) := by
  unfold escLit
  split_ifs with h
  · simp only [List.cons_append, decodeLoop]
    rw [if_neg (fun hh => h12 hh.symm)]
    simp [hb]
  · simp only [Bool.or_eq_true, decide_eq_true_eq, not_or] at h
    simp only [List.cons_append, List.nil_append, decodeLoop]
    rw [if_neg h.1, if_neg h.2]
    simp [hb]

theorem decode_lit_delim (cfg : Config) (h12 : cfg.e1 ≠ cfg.e2) {b : Nat}
    (hb : isDelimByte b = true) (fuel : Nat) (d : Dict) (w s : List Nat) :
    decodeLoop cfg (fuel + 1) d w (escLit cfg b ++ s)
      = (decodeLoop cfg fuel (closeWord d w) [] s).map
          (fun p => (b :: p.1, p.2)) := by
  unfold escLit
  split_ifs with h
  · simp only [List.cons_append, decodeLoop]
    rw [if_neg (fun hh => h12 hh.symm)]
    simp [hb]
  · simp only [Bool.or_eq_true, decide_eq_true_eq, not_or] at h
    simp only [List.cons_append, List.nil_append, decodeLoop]
    rw [if_neg h.1, if_neg h.2]
    simp [hb]

theorem decode_lits (cfg : Config) (h12 : cfg.e1 ≠ cfg.e2) {v : List Nat}
    (hv : v.all (fun b => !isDelimByte b) = true) (fuel : Nat) (d : Dict)
    (w s : List Nat) :
    decodeLoop cfg (v.length + fuel) d w (escLits cfg v ++ s)
      = (decodeLoop cfg fuel d (w ++ v) s).map (fun p => (v ++ p.1, p.2)) := by
  induction v generalizing w with
  | nil =>
    simp only [List.length_nil, Nat.zero_add, escLits, List.foldr,
      List.nil_append, List.append_nil]
    cases h : decodeLoop cfg fuel d w s <;> simp [h]
  | cons b v ih =>
    simp only [List.all_cons, Bool.and_eq_true, Bool.not_eq_true'] at hv
    have hlen : (b :: v).length + fuel = (v.length + fuel) + 1 := by
      rw [List.length_cons]; omega
    rw [hlen, escLits_cons, List.append_assoc,
      decode_lit_nondelim cfg h12 hv.1 (v.length + fuel) d w
        (escLits cfg v ++ s),
      ih hv.2 (w ++ [b])]
    have hw : (w ++ [b]) ++ v = w ++ (b :: v) := by simp
    rw [hw]
    cases decodeLoop cfg fuel d (w ++ (b :: v)) s with
    | none => simp
    | some p => simp

theorem decode_ref (cfg : Config) (fuel : Nat) (d : Dict) {i : Nat}
    {e : Entry} (he : d.entries[i]? = some e) (s : List Nat) :
    decodeLoop cfg (fuel + 1) d [] (refBytes cfg i ++ s)
      = (decodeLoop cfg fuel d [] s).map (fun p => (e.word ++ p.1, p.2)) := by
  unfold refBytes refData
  split_ifs with h
  · simp only [List.cons_append, List.nil_append, decodeLoop]
    simp [h, closeWord_nil, he]
  · simp only [List.cons_append, List.nil_append, decodeLoop]
    have h' : ¬(128 + i / 256 < 128) := by omega
    have hidx : i / 256 * 256 + i % 256 = i := by omega
    simp [h', hidx, closeWord_nil, he]

theorem escLit_length_pos (cfg : Config) (b : Nat) :
    1 ≤ (escLit cfg b).length := by
  unfold escLit
  split_ifs <;> simp

theorem escLits_length_ge (cfg : Config) (v : List Nat) :
    v.length ≤ (escLits cfg v).length := by
  induction v with
  | nil => simp [escLits]
  | cons b v ih =>
    rw [escLits_cons, List.length_append, List.length_cons]
    have := escLit_length_pos cfg b
    omega

/-- Decoding the encoding of a well-formed token list, from dictionary `d`
with pending literal word `w` (already emitted and consumed), returns the
rendered tokens and the encoder's final dictionary, for any step budget
covering the stream length. -/
theorem decode_encTokens (cfg : Config) (h12 : cfg.e1 ≠ cfg.e2) :
    ∀ (toks : List Token) (d : Dict) (w : List Nat) (fuel : Nat),
      wfToks toks = true →
      (startsWord toks = true → w = []) →
      (encTokens cfg (closeWord d w) toks).1.length ≤ fuel →
      decodeLoop cfg fuel d w (encTokens cfg (closeWord d w) toks).1
        = some (render toks, (encTokens cfg (closeWord d w) toks).2) := by
  intro toks
  induction toks with
  | nil =>
    intro d w fuel _ _ _
    simp [encTokens, decodeLoop, render]
  | cons t ts ih =>
    intro d w fuel hwf hsw hfuel
    cases t with
    | delim b =>
      simp only [wfToks, Bool.and_eq_true] at hwf
      simp only [encTokens, encTok] at hfuel ⊢
      cases fuel with
      | zero =>
        exfalso
        rw [List.length_append] at hfuel
        have := escLit_length_pos cfg b
        omega
      | succ f =>
        rw [decode_lit_delim cfg h12 hwf.1 f d w]
        have hrec := ih (closeWord d w) [] f hwf.2 (fun _ => rfl) ?_
        · rw [closeWord_nil] at hrec
          rw [hrec]
          simp [render]
        · rw [closeWord_nil]
          rw [List.length_append] at hfuel
          have := escLit_length_pos cfg b
          omega
    | word v =>
      simp only [wfToks, Bool.and_eq_true, Bool.not_eq_true'] at hwf
      have hw : w = [] := hsw (by simp [startsWord])
      subst hw
      rw [closeWord_nil] at hfuel ⊢
      have hvOK := hwf.1.1
      simp only [wordOK, Bool.and_eq_true] at hvOK
      by_cases hshort : v.length < MIN_WORD_LENGTH
      · -- short word: literal emission, dictionary via closeWord
        have henc : encTok cfg d (Token.word v) = (escLits cfg v, d) := by
          simp only [encTok]
          rw [if_pos hshort]
        have hclose : closeWord d v = d := by
          simp only [closeWord]
          rw [if_pos hshort]
        simp only [encTokens, henc] at hfuel ⊢
        rw [List.length_append] at hfuel
        have hge := escLits_length_ge cfg v
        have hf : v.length + (fuel - v.length) = fuel := by omega
        rw [← hf,
          decode_lits cfg h12 hvOK.2 (fuel - v.length) d []
            (encTokens cfg d ts).1]
        have hrec := ih d v (fuel - v.length) hwf.2 ?_ ?_
        · rw [hclose] at hrec
          simp only [List.nil_append]
          rw [hrec]
          simp [render]
        · intro hst
          exfalso
          rw [hst] at hwf
          exact absurd hwf.1.2 (by simp)
        · rw [hclose]
          omega
      · cases hlook : lookup d v (hashWord v) with
        | some i =>
          have henc : encTok cfg d (Token.word v) = (refBytes cfg i, d) := by
            simp only [encTok]
            rw [if_neg hshort, hlook]
          simp only [encTokens, henc] at hfuel ⊢
          obtain ⟨hslot, e, he, hehash, heword⟩ := lookup_sound hlook
          cases fuel with
          | zero =>
            exfalso
            rw [List.length_append] at hfuel
            simp [refBytes] at hfuel
          | succ f =>
            rw [decode_ref cfg f d he]
            have hrec := ih d [] f hwf.2 (fun _ => rfl) ?_
            · rw [closeWord_nil] at hrec
              rw [hrec]
              simp [render, heword]
            · rw [closeWord_nil]
              rw [List.length_append] at hfuel
              simp [refBytes] at hfuel
              omega
        | none =>
          have henc : encTok cfg d (Token.word v)
              = (escLits cfg v, insert d v (hashWord v)) := by
            simp only [encTok]
            rw [if_neg hshort, hlook]
          have hclose : closeWord d v = insert d v (hashWord v) := by
            simp only [closeWord]
            rw [if_neg hshort, hlook]
          simp only [encTokens, henc] at hfuel ⊢
          rw [List.length_append] at hfuel
          have hge := escLits_length_ge cfg v
          have hf : v.length + (fuel - v.length) = fuel := by omega
          rw [← hf,
            decode_lits cfg h12 hvOK.2 (fuel - v.length) d []
              (encTokens cfg (insert d v (hashWord v)) ts).1]
          have hrec := ih d v (fuel - v.length) hwf.2 ?_ ?_
          · rw [hclose] at hrec
            simp only [List.nil_append]
            rw [hrec]
            simp [render]
          · intro hst
            exfalso
            rw [hst] at hwf
            exact absurd hwf.1.2 (by simp)
          · rw [hclose]
            omega

/-- Round-trip helper: a successful `forward` is inverted exactly by
`inverse`, for any configuration with two distinct escape bytes. -/
theorem roundtrip_aux (cfg : Config) (h12 : cfg.e1 ≠ cfg.e2)
    (src out : List Nat) (hf : forward cfg src = some out) :
    inverse cfg out = some src := by
  simp only [forward] at hf
  split_ifs at hf with hlt
  · cases hf
    unfold inverse
    have hdec := decode_encTokens cfg h12 (tokenize src) (freshDict cfg) []
      (encTokens cfg (freshDict cfg) (tokenize src)).1.length
      (tokenize_wf src) (fun _ => rfl) ?_
    · rw [closeWord_nil] at hdec
      rw [hdec]
      simp [tokenize_render]
    · rw [closeWord_nil]

theorem isNone_map {α β : Type} (f : α → β) (o : Option α) :
    (o.map f).isNone = o.isNone := by
  cases o <;> rfl

/-- The decoder fails exactly where the spec-worded malformedness scan
reports a malformed stream, for every budget, dictionary and pending
word. -/
theorem decodeLoop_isNone (cfg : Config) :
    ∀ (fuel : Nat) (d : Dict) (w s : List Nat),
      (decodeLoop cfg fuel d w s).isNone = malformedStream cfg fuel d w s := by
  intro fuel
  induction fuel with
  | zero =>
    intro d w s
    cases s with
    | nil => rfl
    | cons b s => rfl
  | succ f ih =>
    intro d w s
    cases s with
    | nil => rfl
    | cons b s =>
      by_cases hb1 : b = cfg.e1
      · subst hb1
        cases s with
        | nil => simp [decodeLoop, malformedStream]
        | cons b1 s1 =>
          by_cases h128 : b1 < 128
          · cases hge : (closeWord d w).entries[b1]? with
            | none => simp [decodeLoop, malformedStream, h128, hge]
            | some e =>
              simp [decodeLoop, malformedStream, h128, hge, isNone_map, ih]
          · cases s1 with
            | nil => simp [decodeLoop, malformedStream, h128]
            | cons b2 s2 =>
              cases hge : (closeWord d w).entries[(b1 - 128) * 256 + b2]? with
              | none => simp [decodeLoop, malformedStream, h128, hge]
              | some e =>
                simp [decodeLoop, malformedStream, h128, hge, isNone_map, ih]
      · by_cases hb2 : b = cfg.e2
        · subst hb2
          cases s with
          | nil => simp [decodeLoop, malformedStream, hb1]
          | cons c s1 =>
            by_cases hdc : isDelimByte c
            · simp [decodeLoop, malformedStream, hb1, hdc, isNone_map, ih]
            · simp [decodeLoop, malformedStream, hb1, hdc, isNone_map, ih]
        · by_cases hdb : isDelimByte b
          · simp [decodeLoop, malformedStream, hb1, hb2, hdb, isNone_map, ih]
          · simp [decodeLoop, malformedStream, hb1, hb2, hdb, isNone_map, ih]

/-- A successful `forward` produced a strictly shorter output. -/
theorem forward_length {cfg : Config} {src out : List Nat}
    (hf : forward cfg src = some out) : out.length < src.length := by
  simp only [forward] at hf
  split_ifs at hf with h
  · cases hf
    exact h

/-- A non-compressing encoding makes `forward` fail. -/
theorem forward_fail {cfg : Config} {src : List Nat}
    (h : src.length ≤ (encTokens cfg (freshDict cfg) (tokenize src)).1.length) :
    forward cfg src = none := by
  simp only [forward]
  rw [if_neg (by omega)]

/-- `v & 0xFF` over `Int` (two's complement) always lands in [0, 256). -/
theorem int_land255_bounds (v : Int) :
    0 ≤ Int.land v 255 ∧ Int.land v 255 < 256 := by
  cases v with
  | ofNat m =>
    refine ⟨Int.ofNat_nonneg _, ?_⟩
    have hland : Int.land (Int.ofNat m) 255 = ((m &&& 255 : Nat) : Int) := rfl
    have hle : m &&& 255 ≤ 255 := Nat.and_le_right
    rw [hland]
    omega
  | negSucc m =>
    refine ⟨Int.ofNat_nonneg _, ?_⟩
    have hld : Nat.ldiff 255 m < 256 := by
      have h8 : (256 : Nat) = 2 ^ 8 := by norm_num
      rw [h8]
      apply Nat.lt_pow_two_of_testBit
      intro i hi
      rw [Nat.testBit_ldiff]
      have h255 : Nat.testBit 255 i = false := by
        apply Nat.testBit_lt_two_pow
        calc (255 : Nat) < 2 ^ 8 := by norm_num
          _ ≤ 2 ^ i := Nat.pow_le_pow_right (by norm_num) hi
      simp [h255]
    have hland : Int.land (Int.negSucc m) 255
        = ((Nat.ldiff 255 m : Nat) : Int) := rfl
    rw [hland]
    omega

theorem mapRange_getD (f : Nat → Bool) (i : Nat) (h : i < 256) :
    ((List.range 256).map f).getD i false = f i := by
  rw [List.getD_eq_getElem?_getD, List.getElem?_map, List.getElem?_range h]
  rfl

/-- C1: for every byte buffer `src` on which `forward` succeeds, running
`inverse` on `forward`'s output with an identically-configured,
freshly-seeded codec instance (two distinct escape bytes) reconstructs
`src` exactly, byte for byte. -/
theorem textcodec_roundtrip (cfg : Config) (h12 : cfg.e1 ≠ cfg.e2)
    (src out : List Nat) (hf : forward cfg src = some out) :
    inverse cfg out = some src :=
  roundtrip_aux cfg h12 src out hf

theorem textcodec_roundtrip_witness :
    cfg0.e1 ≠ cfg0.e2 ∧ forward cfg0 src0 = some out0 ∧
      inverse cfg0 out0 = some src0 :=
  ⟨by decide, by decide,
   textcodec_roundtrip cfg0 (by decide) src0 out0 (by decide)⟩

/-- C2: `forward` reports success only when the produced output is
strictly shorter than the input; whenever the encoding would be of equal
or greater length it returns the failure flag, never a same-or-longer
"success". -/
theorem forward_nonexpansion (cfg : Config) (src out : List Nat)
    (hf : forward cfg src = some out) (src2 : List Nat)
    (hexp : src2.length
      ≤ (encTokens cfg (freshDict cfg) (tokenize src2)).1.length) :
    out.length < src.length ∧ forward cfg src2 = none :=
  ⟨forward_length hf, forward_fail hexp⟩

theorem forward_nonexpansion_witness :
    forward cfg0 src0 = some out0 ∧
      src1.length ≤ (encTokens cfg0 (freshDict cfg0) (tokenize src1)).1.length ∧
      out0.length < src0.length ∧ forward cfg0 src1 = none := by
  refine ⟨by decide, by decide, ?_⟩
  exact forward_nonexpansion cfg0 src0 out0 (by decide) src1 (by decide)

/-- C3: `inverse` returns a boolean failure (no output, no placeholder)
exactly when scanning the encoded stream meets an escape-marked reference
whose decoded dictionary index names no existing entry, or an escape byte
with insufficient trailing bytes before the end of the buffer. -/
theorem inverse_failure_characterization (cfg : Config) (src : List Nat) :
    (inverse cfg src).isNone
      = malformedStream cfg src.length (freshDict cfg) [] src := by
  unfold inverse
  rw [isNone_map]
  exact decodeLoop_isNone cfg src.length (freshDict cfg) [] src

/-- C4: at every token-boundary point while decoding a stream forward
produced, the decoder's dictionary (entry list, hence entry count) equals
the encoder's dictionary at the corresponding point of encoding: both
register words by the same shared boundary rule. -/
theorem encoder_decoder_sync (cfg : Config) (h12 : cfg.e1 ≠ cfg.e2)
    (src : List Nat) (k : Nat) :
    (decodeLoop cfg
        (encTokens cfg (freshDict cfg) ((tokenize src).take k)).1.length
        (freshDict cfg) []
        (encTokens cfg (freshDict cfg) ((tokenize src).take k)).1).map
        (fun p => p.2.entries)
      = some (encTokens cfg (freshDict cfg) ((tokenize src).take k)).2.entries
    ∧ (decodeLoop cfg
        (encTokens cfg (freshDict cfg) ((tokenize src).take k)).1.length
        (freshDict cfg) []
        (encTokens cfg (freshDict cfg) ((tokenize src).take k)).1).map
        (fun p => p.2.entries.length)
      = some
          (encTokens cfg (freshDict cfg)
            ((tokenize src).take k)).2.entries.length := by
  have hdec := decode_encTokens cfg h12 ((tokenize src).take k) (freshDict cfg)
    [] (encTokens cfg (freshDict cfg) ((tokenize src).take k)).1.length
    (wfToks_take (tokenize src) k (tokenize_wf src)) (fun _ => rfl) ?_
  · rw [closeWord_nil] at hdec
    rw [hdec]
    exact ⟨rfl, rfl⟩
  · rw [closeWord_nil]

theorem encoder_decoder_sync_witness :
    (decodeLoop cfg0
        (encTokens cfg0 (freshDict cfg0) ((tokenize src0).take 2)).1.length
        (freshDict cfg0) []
        (encTokens cfg0 (freshDict cfg0) ((tokenize src0).take 2)).1).map
        (fun p => p.2.entries.length)
      = some
          (encTokens cfg0 (freshDict cfg0)
            ((tokenize src0).take 2)).2.entries.length :=
  (encoder_decoder_sync cfg0 (by decide) src0 2).2

/-- C5: `lookup` computes the slot `hash & hashMask` and returns the slot
entry's index only if the stored hash matches and the stored bytes equal
the queried word — so two different words colliding in one slot can never
produce a false hit. -/
theorem lookup_collision_safe (d : Dict) (w : List Nat) (h i : Nat)
    (hl : lookup d w h = some i) :
    d.slots (h &&& d.hashMask) = some i ∧
      ∃ e, d.entries[i]? = some e ∧ e.hash = h ∧ e.word = w :=
  lookup_sound hl

theorem lookup_collision_safe_witness :
    lookup (freshDict cfg0) [116, 104, 101] (hashWord [116, 104, 101])
        = some 0 ∧
      ((freshDict cfg0).slots
          (hashWord [116, 104, 101] &&& (freshDict cfg0).hashMask) = some 0 ∧
        ∃ e, (freshDict cfg0).entries[0]? = some e ∧
          e.hash = hashWord [116, 104, 101] ∧ e.word = [116, 104, 101]) :=
  ⟨by decide,
   lookup_collision_safe (freshDict cfg0) [116, 104, 101]
     (hashWord [116, 104, 101]) 0 (by decide)⟩

/-- C6: once the dictionary holds `DICTIONARY_SIZE` entries, `insert`
refuses every further insertion (the state is returned unchanged — no
crash, no corruption), and a stream produced by `forward` still decodes
back exactly, whatever amount of distinct words was seen. -/
theorem capacity_boundary (d : Dict) (w : List Nat) (h : Nat)
    (hful : DICTIONARY_SIZE ≤ d.entries.length) (cfg : Config)
    (h12 : cfg.e1 ≠ cfg.e2) (src out : List Nat)
    (hf : forward cfg src = some out) :
    insert d w h = d ∧ inverse cfg out = some src := by
  constructor
  · unfold insert
    rw [if_pos hful]
  · exact roundtrip_aux cfg h12 src out hf

theorem capacity_boundary_witness :
    DICTIONARY_SIZE ≤ capDict.entries.length ∧
      (insert capDict [97] 0 = capDict ∧ inverse cfg0 out0 = some src0) :=
  ⟨by simp [capDict],
   capacity_boundary capDict [97] 0 (by simp [capDict]) cfg0 (by decide)
     src0 out0 (by decide)⟩

/-- C7: `forward` restricted to a freshly-constructed instance is a
deterministic function of the input bytes and the configuration — two
identically-configured fresh instances produce byte-identical output and
identical seeded dictionaries. -/
theorem forward_deterministic (cfg cfg' : Config) (src : List Nat)
    (h1 : cfg.staticWords = cfg'.staticWords)
    (h2 : cfg.logHashSize = cfg'.logHashSize)
    (h3 : cfg.e1 = cfg'.e1) (h4 : cfg.e2 = cfg'.e2) :
    forward cfg src = forward cfg' src
      ∧ (freshDict cfg).entries = (freshDict cfg').entries := by
  have heq : cfg = cfg' := by
    cases cfg
    cases cfg'
    simp_all
  subst heq
  exact ⟨rfl, rfl⟩

theorem forward_deterministic_witness :
    forward cfg0 src0 = forward cfg0 src0
      ∧ (freshDict cfg0).entries = (freshDict cfg0).entries :=
  forward_deterministic cfg0 cfg0 src0 rfl rfl rfl rfl

/-- C8: `getMaxEncodedLength` returns exactly its argument — the required
destination capacity equals the source length, and a successful `forward`
output indeed fits in it. -/
theorem getMaxEncodedLength_identity (srcLen : Int) (cfg : Config)
    (src out : List Nat) (hf : forward cfg src = some out) :
    getMaxEncodedLength srcLen = srcLen
      ∧ (out.length : Int) ≤ getMaxEncodedLength (src.length : Int) := by
  refine ⟨rfl, ?_⟩
  have hlt := forward_length hf
  unfold getMaxEncodedLength
  exact_mod_cast Nat.le_of_lt hlt

theorem getMaxEncodedLength_identity_witness :
    getMaxEncodedLength 7 = 7
      ∧ (out0.length : Int) ≤ getMaxEncodedLength (src0.length : Int) :=
  getMaxEncodedLength_identity 7 cfg0 src0 out0 (by decide)

/-- C9: the parameterized `DictEntry` constructor narrows both `idx` and
`length` into 16-bit storage: the stored values agree with the arguments
modulo 2^16 (possibly negative), and for arguments outside the int16
range the stored value silently differs from the one passed in. -/
theorem dictEntry_int16_narrowing (buf : List Nat)
    (pos hash idx length : Int) (hidx : idx < -32768 ∨ 32767 < idx)
    (hlen : length < -32768 ∨ 32767 < length) :
    (DictEntry.make buf pos hash idx length)._idx = toInt16 idx
      ∧ (DictEntry.make buf pos hash idx length)._length = toInt16 length
      ∧ ((DictEntry.make buf pos hash idx length)._idx - idx) % 65536 = 0
      ∧ ((DictEntry.make buf pos hash idx length)._length - length) % 65536
          = 0
      ∧ (DictEntry.make buf pos hash idx length)._idx ≠ idx
      ∧ (DictEntry.make buf pos hash idx length)._length ≠ length := by
  refine ⟨rfl, rfl, ?_, ?_, ?_, ?_⟩ <;>
    simp only [DictEntry.make, toInt16] <;> omega

theorem dictEntry_int16_narrowing_witness :
    ((40000 : Int) < -32768 ∨ (32767 : Int) < 40000)
      ∧ (DictEntry.make [] 0 0 40000 40000)._idx ≠ 40000
      ∧ (DictEntry.make [] 0 0 40000 40000)._length ≠ 40000 :=
  ⟨Or.inr (by decide),
   (dictEntry_int16_narrowing [] 0 0 40000 40000 (Or.inr (by decide))
       (Or.inr (by decide))).2.2.2.2.1,
   (dictEntry_int16_narrowing [] 0 0 40000 40000 (Or.inr (by decide))
       (Or.inr (by decide))).2.2.2.2.2⟩

/-- C10: the classifier predicates index their 256-entry tables with
`val & 0xFF`, so for every byte argument — including negative values
under a signed byte representation — the access is in range and each
predicate is a total function of the masked byte. -/
theorem classifier_total (v : Int) :
    0 ≤ Int.land v 255 ∧ Int.land v 255 < 256
      ∧ isText v = isTextByte (Int.land v 255).toNat
      ∧ isDelimiter v = isDelimByte (Int.land v 255).toNat := by
  obtain ⟨h0, h1⟩ := int_land255_bounds v
  have hn : (Int.land v 255).toNat < 256 := by omega
  refine ⟨h0, h1, ?_, ?_⟩
  · unfold isText TEXT_CHARS
    exact mapRange_getD isTextByte _ hn
  · unfold isDelimiter DELIMITER_CHARS
    exact mapRange_getD isDelimByte _ hn

end Kanzi
